import Mathlib

/-!
Verification of the ChiX code-completion engine
(`src/chix/utils/code_completion.py`, class `CodeCompleter`).

Documents are embedded as `List Char`; cursor offsets are `Nat`.
Python slices `text[:p]` / `text[p:]` become `List.take p` / `List.drop p`,
which clamp at the list length exactly as Python slices do for
non-negative indices.  Python's `str.lower` agrees with `Char.toLower`
on ASCII, and every candidate string produced by the completer is ASCII.
-/

namespace ChiX

/-! ### Character classes used by the regexes in the source -/

/-- `[a-zA-Z0-9_]`, the word characters of the source's regexes. -/
def isWordChar (c : Char) : Bool := c.isAlpha || c.isDigit || c = '_'

/-- `[a-zA-Z_]`, the identifier start class of the source's regexes. -/
def isIdentStart (c : Char) : Bool := c.isAlpha || c = '_'

/-- Python's `\s` class on ASCII input. -/
def isPySpace (c : Char) : Bool :=
  c = ' ' || c = '\t' || c = '\n' || c = '\r' || c = '\x0b' || c = '\x0c'

/-- Abbreviation turning a Lean string literal into the `List Char` embedding. -/
def strL (s : String) : List Char := s.toList

/-- Python `str.lower` on ASCII text. -/
def lowerL (s : List Char) : List Char := s.map Char.toLower

/-- Lexicographic comparison of character lists by code point,
Python's `<=` on strings. -/
def lexLe : List Char → List Char → Bool
  | [], _ => true
  | _ :: _, [] => false
  | a :: as, b :: bs => if a = b then lexLe as bs else decide (a < b)

/-! ### Python string primitives -/

/-- Auxiliary scan for `rfindSub`: prefers the rightmost match. -/
def rfindGo (pat : List Char) : List Char → Nat → Option Nat
  | [], i => if pat.isPrefixOf [] then some i else none
  | a :: rest, i =>
    match rfindGo pat rest (i + 1) with
    | some j => some j
    | none => if pat.isPrefixOf (a :: rest) then some i else none

/-- Python `s.rfind(pat)`: the greatest index at which `pat` occurs in `s`,
`none` when absent (Python returns `-1`; every caller in the source guards
or offsets that case, modelled at each call site). -/
def rfindSub (pat s : List Char) : Option Nat := rfindGo pat s 0

/-- Python `pat in s` substring test. -/
def containsSub (pat s : List Char) : Bool := (rfindSub pat s).isSome

/-- Python `s.find(pat)` as an option: the least index at which `pat` occurs. -/
def findSub (pat : List Char) (s : List Char) : Option Nat := go s 0 where
  go : List Char → Nat → Option Nat
  | [], i => if pat.isPrefixOf [] then some i else none
  | a :: rest, i =>
    if pat.isPrefixOf (a :: rest) then some i else go rest (i + 1)

/-- Python `s[-n:]`: the last `n` characters (all of `s` when shorter). -/
def lastN (n : Nat) (s : List Char) : List Char := s.drop (s.length - n)

/-- Python `s.count('\\"')`: occurrences of a double quote immediately
preceded by a backslash (two-character matches cannot overlap). -/
def countEscapedQuotes : List Char → Nat
  | '\\' :: '"' :: rest => 1 + countEscapedQuotes rest
  | _ :: rest => countEscapedQuotes rest
  | [] => 0

/-! ### The static symbol tables of the source module -/

def C_STDLIB_FUNCTIONS : List (List Char) := List.map strL
  ["printf", "scanf", "fprintf", "fscanf", "sprintf", "sscanf",
   "fopen", "fclose", "fread", "fwrite", "fseek", "ftell", "rewind",
   "malloc", "calloc", "realloc", "free", "memcpy", "memset", "memmove",
   "strlen", "strcpy", "strncpy", "strcat", "strncat", "strcmp", "strncmp",
   "strchr", "strrchr", "strstr", "strtok", "atoi", "atol", "atof",
   "rand", "srand", "time", "clock", "difftime", "mktime", "localtime",
   "gmtime", "strftime", "exit", "abort", "atexit", "system", "getenv",
   "bsearch", "qsort", "abs", "labs", "div", "ldiv", "sin", "cos", "tan",
   "asin", "acos", "atan", "atan2", "sinh", "cosh", "tanh", "exp", "log",
   "log10", "pow", "sqrt", "ceil", "floor", "fabs", "fmod", "setjmp", "longjmp"]

def C_KEYWORDS : List (List Char) := List.map strL
  ["auto", "break", "case", "char", "const", "continue", "default", "do",
   "double", "else", "enum", "extern", "float", "for", "goto", "if",
   "int", "long", "register", "return", "short", "signed", "sizeof", "static",
   "struct", "switch", "typedef", "union", "unsigned", "void", "volatile",
   "while", "inline", "restrict", "_Bool", "_Complex", "_Imaginary"]

def C_PREPROCESSOR : List (List Char) := List.map strL
  ["#include", "#define", "#undef", "#ifdef", "#ifndef", "#if", "#else",
   "#elif", "#endif", "#error", "#pragma", "#line"]

def C_TYPES : List (List Char) := List.map strL
  ["int", "char", "void", "float", "double", "short", "long", "unsigned",
   "signed", "size_t", "FILE", "time_t", "clock_t", "struct", "union",
   "enum", "const", "static", "extern", "volatile", "register", "restrict",
   "bool", "_Bool", "_Complex", "_Imaginary", "uint8_t", "uint16_t",
   "uint32_t", "uint64_t", "int8_t", "int16_t", "int32_t", "int64_t"]

/-- The snippet dictionary, keys in the source's literal order.  Lean braces
inside string literals are written with `\x7b` / `\x7d` escapes. -/
def C_SNIPPETS : List (List Char × List Char) :=
  [ (strL "main", strL "int main(int argc, char *argv[]) \x7b\n    \n    return 0;\n\x7d"),
    (strL "for", strL "for (int i = 0; i < n; i++) \x7b\n    \n\x7d"),
    (strL "while", strL "while (condition) \x7b\n    \n\x7d"),
    (strL "do", strL "do \x7b\n    \n\x7d while (condition);"),
    (strL "if", strL "if (condition) \x7b\n    \n\x7d"),
    (strL "ifelse", strL "if (condition) \x7b\n    \n\x7d else \x7b\n    \n\x7d"),
    (strL "switch", strL "switch (expression) \x7b\n    case value1:\n        // code\n        break;\n    case value2:\n        // code\n        break;\n    default:\n        // code\n        break;\n\x7d"),
    (strL "struct", strL "struct name \x7b\n    // members\n\x7d;"),
    (strL "function", strL "return_type function_name(parameters) \x7b\n    // code\n    return value;\n\x7d"),
    (strL "include", strL "#include <stdio.h>"),
    (strL "printf", strL "printf(\"%s\\n\", );"),
    (strL "scanf", strL "scanf(\"%d\", &variable);"),
    (strL "malloc", strL "type *ptr = (type *)malloc(size * sizeof(type));\nif (ptr == NULL) \x7b\n    // Handle error\n\x7d"),
    (strL "free", strL "free(ptr);\nptr = NULL;") ]

/-- The inline list of standard headers in `get_completions`. -/
def STD_HEADERS : List (List Char) := List.map strL
  ["stdio.h", "stdlib.h", "string.h", "math.h", "time.h", "ctype.h"]

/-! ### Context classification (`CodeCompleter.get_context`) -/

/-- The context strings returned by `get_context`
("string", "comment", "preprocessor", "function_args", "struct_member",
"code") as a closed enumeration. -/
inductive Context where
  | string
  | comment
  | preprocessor
  | function_args
  | struct_member
  | code
deriving DecidableEq, Repr

/-- Lines 150-153: quote count minus escaped-quote count is odd.  The
subtraction is `Nat` subtraction; every escaped quote is also counted as a
quote, so it never truncates. -/
def inString (b : List Char) : Bool :=
  (b.count '"' - countEscapedQuotes b) % 2 == 1

/-- Lines 156-160: an unterminated `/*` or a `//` with no newline after it. -/
def inComment (b : List Char) : Bool :=
  (containsSub (strL "/*") b &&
    !containsSub (strL "*/") (b.drop ((rfindSub (strL "/*") b).getD 0)))
  || (containsSub (strL "//") b &&
    !containsSub (strL "\n") (b.drop ((rfindSub (strL "//") b).getD 0)))

/-- Line 163: `rfind("\n") + 1` (Python's `-1` for "absent" becomes `0`). -/
def lastLineStart (b : List Char) : Nat :=
  match rfindSub (strL "\n") b with
  | some i => i + 1
  | none => 0

/-- Lines 163-165: a `#` anywhere in the current line. -/
def inPreproc (b : List Char) : Bool :=
  containsSub (strL "#") (b.drop (lastLineStart b))

/-- Lines 169-175: from the rightmost `(` before the cursor, strictly more
`(` than `)` up to the cursor. -/
def parenOpen (b : List Char) : Bool :=
  match rfindSub (strL "(") b with
  | some i => decide ((b.drop i).count ')' < (b.drop i).count '(')
  | none => false

/-- Line 178: `->` or `.` among the last five characters. -/
def memberCtx (b : List Char) : Bool :=
  containsSub (strL "->") (lastN 5 b) || containsSub (strL ".") (lastN 5 b)

/-- The classification chain of `get_context`, as a function of the text
before the cursor. -/
def classifyBefore (b : List Char) : Context :=
  if inString b then Context.string
  else if inComment b then Context.comment
  else if inPreproc b then Context.preprocessor
  else if parenOpen b then Context.function_args
  else if memberCtx b then Context.struct_member
  else Context.code

/-- `CodeCompleter.get_context(text, cursor_pos)`. -/
def get_context (text : List Char) (cursorPos : Nat) : Context :=
  classifyBefore (text.take cursorPos)

/-- The maximal run of word characters ending at the end of `b`. -/
def trailingWordRun (b : List Char) : List Char :=
  (b.reverse.takeWhile isWordChar).reverse

/-- The value of `re.search(r'[a-zA-Z0-9_]*$', b)`.  Python's `$` without
MULTILINE matches at the end of the string and also just before one
final newline, and the search is leftmost, so when `b` ends with `'\n'`
the match is the word run ending just before that newline; otherwise it
is the word run ending at the end of `b`. -/
def lastWordOf (b : List Char) : List Char :=
  match b.getLast? with
  | some '\n' => trailingWordRun b.dropLast
  | _ => trailingWordRun b

/-- `CodeCompleter.get_last_word(text, cursor_pos)`. -/
def get_last_word (text : List Char) (cursorPos : Nat) : List Char :=
  lastWordOf (text.take cursorPos)

/-! ### Local-variable extraction (`CodeCompleter._extract_local_variables`)

The source applies two `re.findall` scans.  Both patterns are modelled by
direct backtracking matchers with the same semantics: scan left to right,
at each offset attempt a match, on success emit the captured group and
resume after the whole match, otherwise advance one character. -/

/-- The alternatives of `var_pattern`'s type-keyword group, in regex order.
No alternative is a literal prefix of another, so at most one can match at
a given offset. -/
def varTypeKeywords : List (List Char) := List.map strL
  ["int", "char", "float", "double", "long", "short", "unsigned",
   "signed", "void", "size_t", "bool", "struct", "enum", "union"]

/-- One match attempt of
`\b(int|char|...|union)\s+([a-zA-Z_][a-zA-Z0-9_]*)` at the head of `s`,
where `prev` is the character before `s` (for the `\b` boundary).
Returns the captured identifier, the rest of the input after the match,
and the last consumed character. -/
def varTryAt (prev : Option Char) (s : List Char) : Option (List Char × List Char × Char) :=
  let boundary := match prev with
    | none => true
    | some p => !isWordChar p
  if boundary then
    match varTypeKeywords.findSome? (fun kw => if kw.isPrefixOf s then some kw else none) with
    | none => none
    | some kw =>
      let s1 := s.drop kw.length
      let sp := s1.takeWhile isPySpace
      let s2 := s1.dropWhile isPySpace
      if sp.isEmpty then none
      else
        match s2 with
        | c :: _ =>
          if isIdentStart c then
            let name := s2.takeWhile isWordChar
            some (name, s2.dropWhile isWordChar, name.getLastD c)
          else none
        | [] => none
  else none

/-- `re.findall(var_pattern, s)` keeping the second group (the names). -/
def varFindAllGo (fuel : Nat) (prev : Option Char) (s : List Char) : List (List Char) :=
  match fuel, s with
  | 0, _ => []
  | _ + 1, [] => []
  | f + 1, c :: rest =>
    match varTryAt prev (c :: rest) with
    | some (name, s', lastC) => name :: varFindAllGo f (some lastC) s'
    | none => varFindAllGo f (some c) rest

def varFindAll (s : List Char) : List (List Char) := varFindAllGo s.length none s

/-- One match attempt of `\([^)]*\b([a-zA-Z_][a-zA-Z0-9_]*)\s*(?:,|\))`,
given the characters `rest` after a `(`.  The greedy `[^)]*` backtracks
from the longest extent, modelled by trying split points of the
`)`-free body from the right.  Returns the captured identifier and the
rest of the input after the match. -/
def paramAttempt (rest : List Char) : Option (List Char × List Char) :=
  let body := rest.takeWhile (fun c => !(c = ')'))
  let after := rest.dropWhile (fun c => !(c = ')'))
  (List.range body.length).reverse.findSome? (fun k =>
    let prevOk := if k = 0 then true else !isWordChar (body.getD (k - 1) ' ')
    match body.drop k with
    | c :: _ =>
      if prevOk && isIdentStart c then
        let name := (body.drop k).takeWhile isWordChar
        let rem := ((body.drop k).dropWhile isWordChar).dropWhile isPySpace
        match rem with
        | ',' :: tl => some (name, tl ++ after)
        | _ :: _ => none
        | [] =>
          match after with
          | ')' :: tl => some (name, tl)
          | _ => none
      else none
    | [] => none)

/-- `re.findall(param_pattern, s)` keeping the captured names. -/
def paramFindAllGo (fuel : Nat) (s : List Char) : List (List Char) :=
  match fuel, s with
  | 0, _ => []
  | _ + 1, [] => []
  | f + 1, c :: rest =>
    if c = '(' then
      match paramAttempt rest with
      | some (name, resume) => name :: paramFindAllGo f resume
      | none => paramFindAllGo f rest
    else paramFindAllGo f rest

def paramFindAll (s : List Char) : List (List Char) := paramFindAllGo s.length s

/-- First-occurrence deduplication, the key order of a Python dict built
by repeated assignment. -/
def dedupFirstGo : List (List Char) → List (List Char) → List (List Char)
  | _, [] => []
  | seen, x :: rest =>
    if x ∈ seen then dedupFirstGo seen rest
    else x :: dedupFirstGo (x :: seen) rest

/-- `CodeCompleter._extract_local_variables(text, cursor_pos)` applied to
`text[:cursor_pos]`, as the list of dictionary keys.  The stored
declaration offsets are never read by the completer (the guard
`pos >= 0` always holds since each name was found inside the text), so
only the key list is modelled. -/
def extract_local_variables (b : List Char) : List (List Char) :=
  dedupFirstGo [] (varFindAll b ++ paramFindAll b)

/-! ### Function extraction (`CodeCompleter._extract_functions`) -/

/-- The suffixes after each iteration of the `([a-zA-Z_][a-zA-Z0-9_]*\s+)+`
group, greedily: each block is a maximal identifier followed by at least
one whitespace character. -/
def funcBlocksGo (fuel : Nat) (s : List Char) : List (List Char) :=
  match fuel, s with
  | 0, _ => []
  | _ + 1, [] => []
  | f + 1, c :: _ =>
    if isIdentStart c then
      let afterIdent := s.dropWhile isWordChar
      if (afterIdent.takeWhile isPySpace).isEmpty then []
      else
        let s' := afterIdent.dropWhile isPySpace
        s' :: funcBlocksGo f s'
    else []

/-- The tail of `func_pattern` after the repeated group:
`([a-zA-Z_][a-zA-Z0-9_]*)\s*\([^{;]*\)\s*[{;]`.  The greedy `[^{;]*`
succeeds exactly when, after stripping trailing whitespace, the run
before the `{` or `;` terminator ends in `)`.  Returns the captured name,
the rest after the match, and the terminator character. -/
def funcTryTail (t : List Char) : Option (List Char × List Char × Char) :=
  match t with
  | c :: _ =>
    if isIdentStart c then
      let name := t.takeWhile isWordChar
      let t1 := (t.dropWhile isWordChar).dropWhile isPySpace
      match t1 with
      | '(' :: r =>
        let run := r.takeWhile (fun c => !(c = '{' || c = ';'))
        let term := r.dropWhile (fun c => !(c = '{' || c = ';'))
        match term with
        | tc :: tl =>
          match run.reverse.dropWhile isPySpace with
          | ')' :: _ => some (name, tl, tc)
          | _ => none
        | [] => none
      | _ => none
    else none
  | [] => none

/-- One match attempt of `func_pattern` at the head of `s`: at least one
type-word block, then the tail, backtracking over the number of blocks
from the most greedy. -/
def funcAttempt (prev : Option Char) (s : List Char) : Option (List Char × List Char × Char) :=
  let boundary := match prev with
    | none => true
    | some p => !isWordChar p
  if boundary then (funcBlocksGo s.length s).reverse.findSome? funcTryTail
  else none

/-- `re.findall(func_pattern, s)` keeping the second group. -/
def funcFindAllGo (fuel : Nat) (prev : Option Char) (s : List Char) : List (List Char) :=
  match fuel, s with
  | 0, _ => []
  | _ + 1, [] => []
  | f + 1, c :: rest =>
    match funcAttempt prev (c :: rest) with
    | some (name, s', lastC) => name :: funcFindAllGo f (some lastC) s'
    | none => funcFindAllGo f (some c) rest

def funcFindAll (s : List Char) : List (List Char) := funcFindAllGo s.length none s

/-- `CodeCompleter._extract_functions(text)`: matched names that are
non-empty and not C keywords (`.strip()` is the identity on the captured
group, which has no whitespace). -/
def extract_functions (text : List Char) : List (List Char) :=
  (funcFindAll text).filter (fun f => !f.isEmpty && !C_KEYWORDS.contains f)

/-! ### Header extraction (`CodeCompleter._extract_header_name`) -/

/-- One match attempt of `#include\s+[<"]([^>"]+)[>"]` at the head of `t`. -/
def headerTryAt (t : List Char) : Option (List Char) :=
  if (strL "#include").isPrefixOf t then
    let r1 := t.drop 8
    let r2 := r1.dropWhile isPySpace
    if (r1.takeWhile isPySpace).isEmpty then none
    else
      match r2 with
      | c :: r3 =>
        if c = '<' || c = '"' then
          let name := r3.takeWhile (fun c => !(c = '>' || c = '"'))
          let r4 := r3.dropWhile (fun c => !(c = '>' || c = '"'))
          if name.isEmpty then none
          else
            match r4 with
            | _ :: _ => some name
            | [] => none
        else none
      | [] => none
  else none

/-- `CodeCompleter._extract_header_name(line)`: leftmost match of the
include pattern (`re.search`). -/
def extract_header_name : List Char → Option (List Char)
  | [] => none
  | c :: rest =>
    match headerTryAt (c :: rest) with
    | some n => some n
    | none => extract_header_name rest

/-- Lines 209-214 of `get_completions`: the set of headers named by
`#include` lines anywhere in the document.  The source stores this in
`self.included_headers` and never reads it again; it is modelled as a
standalone function (a deduplicated list standing for the Python set). -/
def get_included_headers (text : List Char) : List (List Char) :=
  dedupFirstGo [] ((text.splitOn '\n').filterMap extract_header_name)

/-! ### Candidates, ranking and the completer state -/

/-- The kind tags attached to candidates ("keyword", "type", "function",
"variable", "preprocessor", "header", "snippet") as a closed
enumeration; `type`, `func`, `var` and `preproc` name the Python strings
"type", "function", "variable" and "preprocessor". -/
inductive Kind where
  | keyword
  | type
  | func
  | var
  | preproc
  | header
  | snippet
deriving DecidableEq, Repr

/-- A completion candidate `(kind, text)`. -/
abbrev Candidate := Kind × List Char

/-- The sort key order of lines 281-282: comparison of the lowercased
candidate texts. -/
def candLe (c d : Candidate) : Prop := lexLe (lowerL c.2) (lowerL d.2) = true

instance : DecidableRel candLe := fun c d =>
  inferInstanceAs (Decidable (lexLe (lowerL c.2) (lowerL d.2) = true))

/-- Python `list.sort(key=lambda x: x[1].lower())`.  Python's sort is
stable, and a stable sort's output is uniquely determined by the key
order, so any stable sort computes it; `List.insertionSort` with a
reflexive `le` is stable. -/
def sortByLower (l : List Candidate) : List Candidate :=
  List.insertionSort candLe l

/-- The completer state: `self.project_symbols`, a mapping from function
name to the list of files it was found in, in insertion order.
`self.local_variables` and `self.included_headers` are recomputed by
every query before use, so they are not part of the modelled state. -/
structure CodeCompleter where
  projectSymbols : List (List Char × List (List Char))

/-- `CodeCompleter.__init__`: empty symbol cache. -/
def initCompleter : CodeCompleter := ⟨[]⟩

/-- `defaultdict(list)` update: `project_symbols[func].append(file_path)`. -/
def addSymbol (syms : List (List Char × List (List Char))) (f path : List Char) :
    List (List Char × List (List Char)) :=
  match syms with
  | [] => [(f, [path])]
  | (g, ps) :: rest =>
    if g = f then (g, ps ++ [path]) :: rest
    else (g, ps) :: addSymbol rest f path

/-- `CodeCompleter.scan_project_files`.  The filesystem walk is supplied
as a list of `(path, readResult)` pairs, `none` standing for any
exception raised while reading or processing that file; the source's
`try`/`except` skips such a file and continues. -/
def scan_project_files (files : List (List Char × Option (List Char))) :
    List (List Char × List (List Char)) :=
  files.foldl
    (fun syms file =>
      match file.2 with
      | none => syms
      | some content =>
        (extract_functions content).foldl (fun m f => addSymbol m f file.1) syms)
    []

/-- The per-file step of `scan_project_files`. -/
def scanStep (syms : List (List Char × List (List Char)))
    (file : List Char × Option (List Char)) : List (List Char × List (List Char)) :=
  match file.2 with
  | none => syms
  | some content =>
    (extract_functions content).foldl (fun m f => addSymbol m f file.1) syms

/-- Association lookup in the project-symbol map (Python dict access by
function name). -/
def lookupSyms : List (List Char × List (List Char)) → List Char → Option (List (List Char))
  | [], _ => none
  | (g, ps) :: rest, f => if g = f then some ps else lookupSyms rest f

/-- The number of double quotes in the list that are not immediately
preceded by a backslash — the "unescaped double quotes" of the spec
wording; `prev` is the character just before the list (`none` at the
start of the text). -/
def numUnescQ (prev : Option Char) : List Char → Nat
  | [] => 0
  | c :: rest => (if c = '"' ∧ prev ≠ some '\\' then 1 else 0) + numUnescQ (some c) rest

/-- The unsorted candidate list built by lines 217-273 of
`get_completions`, as a function of the text before the cursor: the
always-added local-variable and project-symbol candidates followed by the
context-specific block, each filtered by the lowercase-substring test
against the partial word. -/
def candidatePool (st : CodeCompleter) (b : List Char) : List Candidate :=
  ((extract_local_variables b).filter
      (fun v => containsSub (lowerL (lastWordOf b)) (lowerL v))).map
    (fun v => (Kind.var, v))
  ++ ((st.projectSymbols.map Prod.fst).filter
      (fun s => containsSub (lowerL (lastWordOf b)) (lowerL s))).map
    (fun s => (Kind.func, s))
  ++ (match classifyBefore b with
      | Context.preprocessor =>
        (C_PREPROCESSOR.filter
            (fun d => containsSub (lowerL (lastWordOf b)) (lowerL d))).map
          (fun d => (Kind.preproc, d))
        ++ (if containsSub (strL "#include") (b.drop (lastLineStart b)) then
              (STD_HEADERS.filter
                  (fun h => containsSub (lowerL (lastWordOf b)) (lowerL h))).map
                (fun h => (Kind.header, h))
            else [])
      | Context.struct_member => []
      | Context.function_args =>
        ((extract_local_variables b).filter
            (fun v => containsSub (lowerL (lastWordOf b)) (lowerL v))).map
          (fun v => (Kind.var, v))
      | _ =>
        (C_KEYWORDS.filter
            (fun k => containsSub (lowerL (lastWordOf b)) (lowerL k))).map
          (fun k => (Kind.keyword, k))
        ++ (C_TYPES.filter
            (fun t => containsSub (lowerL (lastWordOf b)) (lowerL t))).map
          (fun t => (Kind.type, t))
        ++ (C_STDLIB_FUNCTIONS.filter
            (fun f => containsSub (lowerL (lastWordOf b)) (lowerL f))).map
          (fun f => (Kind.func, f))
        ++ ((C_SNIPPETS.map Prod.fst).filter
            (fun n => containsSub (lowerL (lastWordOf b)) (lowerL n))).map
          (fun n => (Kind.snippet, n)))

/-- `CodeCompleter.get_completions` as a function of the text before the
cursor (every computation affecting the method's return value reads
`text[:cursor_pos]`; the `self.included_headers` assignment of lines
209-214 reads the full text but is never consulted again, see
`get_included_headers`).  Lines 275-284: split the pool into
prefix-starting and remaining matches, sort each by lowercase text, and
concatenate. -/
def completionsOf (st : CodeCompleter) (b : List Char) : List Candidate :=
  if classifyBefore b = Context.comment ∨ classifyBefore b = Context.string then []
  else if lastWordOf b = [] then []
  else
    sortByLower ((candidatePool st b).filter
      (fun c => (lowerL (lastWordOf b)).isPrefixOf (lowerL c.2)))
    ++ sortByLower ((candidatePool st b).filter
      (fun c => !(lowerL (lastWordOf b)).isPrefixOf (lowerL c.2)))

/-- `CodeCompleter.get_completions(text, cursor_pos)`. -/
def get_completions (st : CodeCompleter) (text : List Char) (cursorPos : Nat) :
    List Candidate :=
  completionsOf st (text.take cursorPos)

/-! ### Applying a completion (`CodeCompleter.apply_completion`) -/

/-- The text spliced in place of the trailing prefix: the snippet body for
snippet candidates, the name plus `()` for function candidates, and the
candidate text otherwise (lines 297-310). -/
def insertedText (c : Candidate) : List Char :=
  match c.1 with
  | Kind.snippet => (List.lookup c.2 C_SNIPPETS).getD []
  | Kind.func => c.2 ++ strL "()"
  | _ => c.2

/-- `CodeCompleter.apply_completion(text, cursor_pos, completion)`,
returning `(new_text, new_cursor_pos)`.  A snippet candidate whose name is
not a key of `C_SNIPPETS` raises `KeyError` in the source, modelled as
`none`.  The snippet cursor offset models `find("\n    ") + 5` with
Python's `-1`-when-absent convention. -/
def apply_completion (text : List Char) (cursorPos : Nat) (completion : Candidate) :
    Option (List Char × Nat) :=
  let partialWord := get_last_word text cursorPos
  let textBefore := text.take (cursorPos - partialWord.length)
  let textAfter := text.drop cursorPos
  match completion.1 with
  | Kind.snippet =>
    match List.lookup completion.2 C_SNIPPETS with
    | none => none
    | some content =>
      some (textBefore ++ content ++ textAfter,
        cursorPos - partialWord.length +
          (match findSub (strL "\n    ") content with
           | some i => i + 5
           | none => 4))
  | Kind.func =>
    some (textBefore ++ completion.2 ++ strL "()" ++ textAfter,
      cursorPos - partialWord.length + completion.2.length + 1)
  | _ =>
    some (textBefore ++ completion.2 ++ textAfter,
      cursorPos - partialWord.length + completion.2.length)

/-! ### Order properties of the ranking comparison -/

theorem lexLe_total (a : List Char) : ∀ b, lexLe a b = true ∨ lexLe b a = true := by
  induction a with
  | nil => intro b; left; rfl
  | cons x xs ih =>
    intro b
    cases b with
    | nil => right; rfl
    | cons y ys =>
      by_cases hxy : x = y
      · subst hxy
        rcases ih ys with h | h
        · left; simpa [lexLe] using h
        · right; simpa [lexLe] using h
      · rcases lt_trichotomy x y with hlt | heq | hgt
        · left; simp [lexLe, hxy, hlt]
        · exact absurd heq hxy
        · right; simp [lexLe, Ne.symm hxy, hgt]

theorem lexLe_trans (a : List Char) :
    ∀ b c, lexLe a b = true → lexLe b c = true → lexLe a c = true := by
  induction a with
  | nil => intro b c _ _; rfl
  | cons x xs ih =>
    intro b c hab hbc
    cases b with
    | nil => simp [lexLe] at hab
    | cons y ys =>
      cases c with
      | nil => simp [lexLe] at hbc
      | cons z zs =>
        by_cases hxy : x = y <;> by_cases hyz : y = z
        · subst hxy; subst hyz
          simp only [lexLe, if_pos rfl] at hab hbc ⊢
          exact ih ys zs hab hbc
        · subst hxy
          simp only [lexLe, if_pos rfl, if_neg hyz] at hbc ⊢
          exact hbc
        · subst hyz
          simp only [lexLe, if_pos rfl, if_neg hxy] at hab ⊢
          exact hab
        · simp only [lexLe, if_neg hxy] at hab
          simp only [lexLe, if_neg hyz] at hbc
          have hlt : x < z := lt_trans (of_decide_eq_true hab) (of_decide_eq_true hbc)
          simp [lexLe, ne_of_lt hlt, hlt]

instance : IsTotal Candidate candLe :=
  ⟨fun a b => lexLe_total (lowerL a.2) (lowerL b.2)⟩

instance : IsTrans Candidate candLe :=
  ⟨fun a b c => lexLe_trans (lowerL a.2) (lowerL b.2) (lowerL c.2)⟩

theorem sorted_sortByLower (l : List Candidate) :
    List.Sorted candLe (sortByLower l) :=
  List.sorted_insertionSort candLe l

theorem perm_sortByLower (l : List Candidate) : (sortByLower l).Perm l :=
  List.perm_insertionSort candLe l

/-! ### Characterization of `rfindSub` and `containsSub` -/

theorem rfindGo_isSome_iff (pat : List Char) :
    ∀ (s : List Char) (i : Nat),
      (rfindGo pat s i).isSome = true ↔ ∃ u v, s = u ++ pat ++ v := by
  intro s
  induction s with
  | nil =>
    intro i
    simp only [rfindGo]
    constructor
    · intro h
      by_cases hp : pat.isPrefixOf ([] : List Char)
      · cases pat with
        | nil => exact ⟨[], [], rfl⟩
        | cons a as => simp [List.isPrefixOf] at hp
      · simp [hp] at h
    · rintro ⟨u, v, huv⟩
      have hpe : pat = [] := by
        cases u <;> cases pat <;> simp_all
      subst hpe
      simp [List.isPrefixOf]
  | cons a rest ih =>
    intro i
    simp only [rfindGo]
    constructor
    · intro h
      cases hrec : rfindGo pat rest (i + 1) with
      | some j =>
        rcases (ih (i + 1)).mp (by simp [hrec]) with ⟨u, v, huv⟩
        exact ⟨a :: u, v, by simp [huv]⟩
      | none =>
        rw [hrec] at h
        by_cases hp : pat.isPrefixOf (a :: rest)
        · rcases List.isPrefixOf_iff_prefix.mp hp with ⟨t, ht⟩
          exact ⟨[], t, by simp [ht.symm]⟩
        · simp [hp] at h
    · rintro ⟨u, v, huv⟩
      cases u with
      | nil =>
        have hp : pat.isPrefixOf (a :: rest) := by
          apply List.isPrefixOf_iff_prefix.mpr
          exact ⟨v, by simpa using huv.symm⟩
        cases hrec : rfindGo pat rest (i + 1) <;> simp [hrec, hp]
      | cons x u' =>
        have hx : a = x ∧ rest = u' ++ pat ++ v := by simpa using huv
        have hs : (rfindGo pat rest (i + 1)).isSome = true :=
          (ih (i + 1)).mpr ⟨u', v, hx.2⟩
        cases hrec : rfindGo pat rest (i + 1) with
        | some j => simp [hrec]
        | none => rw [hrec] at hs; simp at hs

theorem containsSub_iff (pat s : List Char) :
    containsSub pat s = true ↔ ∃ u v, s = u ++ pat ++ v := by
  unfold containsSub rfindSub
  exact rfindGo_isSome_iff pat s 0

theorem containsSub_singleton_iff (c : Char) (s : List Char) :
    containsSub [c] s = true ↔ c ∈ s := by
  rw [containsSub_iff]
  constructor
  · rintro ⟨u, v, rfl⟩; simp
  · intro h
    rcases List.append_of_mem h with ⟨u, v, rfl⟩
    exact ⟨u, v, by simp⟩

/-! ### Unescaped-quote counting -/

theorem countEscapedQuotes_cons (c : Char) (rest : List Char)
    (h : ¬(c = '\\' ∧ rest.head? = some '"')) :
    countEscapedQuotes (c :: rest) = countEscapedQuotes rest := by
  rw [countEscapedQuotes.eq_def]
  split
  · rename_i rest1 heq
    injection heq with h1 h2
    subst h1
    subst h2
    exact absurd ⟨rfl, rfl⟩ h
  · rename_i x xs hside heq
    injection heq with h1 h2
    subst h2
    rfl
  · rename_i heq
    exact absurd heq (by simp)

theorem countEscapedQuotes_le : ∀ s : List Char, countEscapedQuotes s ≤ s.count '"' := by
  intro s
  induction s using countEscapedQuotes.induct with
  | case1 rest ih =>
    simp only [countEscapedQuotes, List.count_cons]
    simp
    omega
  | case2 c rest h ih =>
    have hc : ¬(c = '\\' ∧ rest.head? = some '"') := by
      rintro ⟨rfl, hh⟩
      cases rest with
      | nil => simp at hh
      | cons d t =>
        simp at hh
        exact h t rfl (by rw [hh])
    rw [countEscapedQuotes_cons c rest hc, List.count_cons]
    split <;> omega
  | case3 => simp [countEscapedQuotes]

theorem numUnescQ_head_ne (rest : List Char) (p q : Option Char)
    (h : rest.head? ≠ some '"') : numUnescQ p rest = numUnescQ q rest := by
  cases rest with
  | nil => rfl
  | cons d t =>
    have hd : ¬(d = '"') := by
      intro hd; exact h (by rw [hd]; rfl)
    simp [numUnescQ, hd]

/-- The positional unescaped-quote count agrees with the source's
`count('"') - count('\\"')` computation. -/
theorem numUnescQ_eq : ∀ s : List Char, ∀ p : Option Char, p ≠ some '\\' →
    numUnescQ p s = s.count '"' - countEscapedQuotes s := by
  intro s
  induction s using countEscapedQuotes.induct with
  | case1 rest ih =>
    intro p hp
    have h1 : numUnescQ p ('\\' :: '"' :: rest) = numUnescQ (some '"') rest := by
      simp [numUnescQ]
    rw [h1, ih (some '"') (by simp), List.count_cons, List.count_cons]
    simp only [countEscapedQuotes]
    simp
    omega
  | case2 c rest h ih =>
    intro p hp
    have hc : ¬(c = '\\' ∧ rest.head? = some '"') := by
      rintro ⟨rfl, hh⟩
      cases rest with
      | nil => simp at hh
      | cons d t =>
        simp at hh
        exact h t rfl (by rw [hh])
    rw [countEscapedQuotes_cons c rest hc]
    by_cases hcq : c = '"'
    · subst hcq
      have h2 : numUnescQ p ('"' :: rest) = 1 + numUnescQ (some '"') rest := by
        simp [numUnescQ, hp]
      rw [h2, ih (some '"') (by simp), List.count_cons]
      have := countEscapedQuotes_le rest
      simp
      omega
    · by_cases hcb : c = '\\'
      · subst hcb
        have hrest : rest.head? ≠ some '"' := by
          intro hh
          cases rest with
          | nil => simp at hh
          | cons d t =>
            simp at hh
            exact h t rfl (by rw [hh])
        have h2 : numUnescQ p ('\\' :: rest) = numUnescQ (some '\\') rest := by
          simp [numUnescQ]
        rw [h2, numUnescQ_head_ne rest (some '\\') none hrest,
          ih none (by simp), List.count_cons]
        simp
      · have h2 : numUnescQ p (c :: rest) = numUnescQ (some c) rest := by
          simp [numUnescQ, hcq]
        rw [h2, ih (some c) (by simp [hcb]), List.count_cons]
        simp [hcq]
  | case3 =>
    intro p hp
    simp [numUnescQ, countEscapedQuotes]

/-- The source's string test is odd parity of the unescaped-quote count. -/
theorem inString_iff_numUnescQ (b : List Char) :
    inString b = true ↔ numUnescQ none b % 2 = 1 := by
  unfold inString
  rw [numUnescQ_eq b none (by simp)]
  simp

/-! ### Characterization of the rightmost-`(` check -/

theorem rfindGo_char_none (c : Char) :
    ∀ (s : List Char) (i : Nat), rfindGo [c] s i = none → c ∉ s := by
  intro s
  induction s with
  | nil => intro i _; simp
  | cons a rest ih =>
    intro i h
    simp only [rfindGo] at h
    cases hrec : rfindGo [c] rest (i + 1) with
    | some j => rw [hrec] at h; exact absurd h (by simp)
    | none =>
      rw [hrec] at h
      by_cases hp : [c].isPrefixOf (a :: rest)
      · simp [hp] at h
      · have hac : ¬(a = c) := by
          intro hac; subst hac
          simp [List.isPrefixOf] at hp
        simp only [List.mem_cons]
        rintro (rfl | hm)
        · exact hac rfl
        · exact ih (i + 1) hrec hm

theorem rfindGo_char_some (c : Char) :
    ∀ (s : List Char) (i j : Nat), rfindGo [c] s i = some j →
      ∃ k, j = i + k ∧ s[k]? = some c ∧ ∀ m, k < m → s[m]? ≠ some c := by
  intro s
  induction s with
  | nil => intro i j h; simp [rfindGo, List.isPrefixOf] at h
  | cons a rest ih =>
    intro i j h
    simp only [rfindGo] at h
    cases hrec : rfindGo [c] rest (i + 1) with
    | some j' =>
      rw [hrec] at h
      injection h with h
      subst h
      rcases ih (i + 1) _ hrec with ⟨k', hk', hget, hmax⟩
      refine ⟨k' + 1, by omega, by simpa using hget, ?_⟩
      intro m hm
      cases m with
      | zero => omega
      | succ m' =>
        rw [List.getElem?_cons_succ]
        exact hmax m' (by omega)
    | none =>
      rw [hrec] at h
      by_cases hp : [c].isPrefixOf (a :: rest)
      · rw [if_pos hp] at h
        injection h with h
        subst h
        have hac : a = c := by
          by_contra hac
          simp [List.isPrefixOf] at hp
          exact hac hp.symm
        refine ⟨0, by omega, by simp [hac], ?_⟩
        intro m hm
        cases m with
        | zero => omega
        | succ m' =>
          rw [List.getElem?_cons_succ]
          intro hmem
          exact rfindGo_char_none c rest (i + 1) hrec
            (List.mem_iff_getElem?.mpr ⟨m', hmem⟩)
      · rw [if_neg hp] at h
        exact absurd h (by simp)

theorem parenOpen_iff (b : List Char) :
    parenOpen b = true ↔ ∃ u v, b = u ++ '(' :: v ∧ ')' ∉ v := by
  constructor
  · intro h
    unfold parenOpen at h
    cases hr : rfindSub (strL "(") b with
    | none => rw [hr] at h; exact absurd h (by simp)
    | some i =>
      rw [hr] at h
      have hcount := of_decide_eq_true h
      rcases rfindGo_char_some '(' b 0 i hr with ⟨k, hk, hget, hmax⟩
      have hk0 : i = k := by omega
      subst hk0
      rcases List.getElem?_eq_some.mp hget with ⟨hilen, hgeti⟩
      have hdrop : b.drop i = '(' :: b.drop (i + 1) := by
        rw [List.drop_eq_getElem_cons hilen, hgeti]
      have hnoparen : '(' ∉ b.drop (i + 1) := by
        intro hmem
        rcases List.mem_iff_getElem?.mp hmem with ⟨m, hm⟩
        rw [List.getElem?_drop] at hm
        exact hmax (i + 1 + m) (by omega) hm
      have hcount1 : (b.drop i).count '(' = 1 := by
        rw [hdrop, List.count_cons]
        simp [List.count_eq_zero.mpr hnoparen]
      rw [hcount1] at hcount
      have hzero : (b.drop i).count ')' = 0 := by omega
      rw [hdrop, List.count_cons] at hzero
      refine ⟨b.take i, b.drop (i + 1), ?_, ?_⟩
      · rw [← hdrop, List.take_append_drop]
      · intro hmem
        have h1 : (b.drop (i + 1)).count ')' = 0 := by
          revert hzero
          split <;> omega
        exact (List.count_eq_zero.mp h1) hmem
  · rintro ⟨u, v, rfl, hnv⟩
    have hmem : '(' ∈ u ++ '(' :: v := by simp
    cases hr : rfindSub (strL "(") (u ++ '(' :: v) with
    | none => exact absurd hmem (rfindGo_char_none '(' _ 0 hr)
    | some i =>
      rcases rfindGo_char_some '(' _ 0 i hr with ⟨k, hk, hget, hmax⟩
      have hk0 : i = k := by omega
      subst hk0
      have hulen : (u ++ '(' :: v)[u.length]? = some '(' := by
        rw [List.getElem?_append]
        simp
      have hile : u.length ≤ i := by
        by_contra hlt
        exact hmax u.length (by omega) hulen
      rcases List.getElem?_eq_some.mp hget with ⟨hilen, hgeti⟩
      have hdrop : (u ++ '(' :: v).drop i = '(' :: (u ++ '(' :: v).drop (i + 1) := by
        rw [List.drop_eq_getElem_cons hilen, hgeti]
      have hzero : ((u ++ '(' :: v).drop i).count ')' = 0 := by
        apply List.count_eq_zero.mpr
        intro hmem'
        rcases List.mem_iff_getElem?.mp hmem' with ⟨m, hm⟩
        rw [List.getElem?_drop] at hm
        have him : u.length ≤ i + m := by omega
        rcases Nat.eq_or_lt_of_le him with heq | hlt
        · rw [← heq] at hm
          rw [hulen] at hm
          simp at hm
        · rw [List.getElem?_append] at hm
          rw [if_neg (by omega)] at hm
          have hsucc : i + m - u.length = (i + m - u.length - 1) + 1 := by omega
          rw [hsucc, List.getElem?_cons_succ] at hm
          exact hnv (List.mem_iff_getElem?.mpr ⟨_, hm⟩)
      have hpos : 0 < ((u ++ '(' :: v).drop i).count '(' := by
        rw [hdrop]
        simp [List.count_cons]
      have hcnt : ((u ++ '(' :: v).drop i).count ')' <
          ((u ++ '(' :: v).drop i).count '(' := by omega
      unfold parenOpen
      rw [hr]
      exact decide_eq_true hcnt

/-! ### Structure lemmas for `completionsOf` -/

theorem completionsOf_main (st : CodeCompleter) (b : List Char)
    (h1 : ¬(classifyBefore b = Context.comment ∨ classifyBefore b = Context.string))
    (h2 : lastWordOf b ≠ []) :
    completionsOf st b =
      sortByLower ((candidatePool st b).filter
        (fun c => (lowerL (lastWordOf b)).isPrefixOf (lowerL c.2)))
      ++ sortByLower ((candidatePool st b).filter
        (fun c => !(lowerL (lastWordOf b)).isPrefixOf (lowerL c.2))) := by
  unfold completionsOf
  rw [if_neg h1, if_neg h2]

theorem mem_completionsOf (st : CodeCompleter) (b : List Char) (c : Candidate)
    (h1 : ¬(classifyBefore b = Context.comment ∨ classifyBefore b = Context.string))
    (h2 : lastWordOf b ≠ [])
    (hc : c ∈ candidatePool st b) : c ∈ completionsOf st b := by
  rw [completionsOf_main st b h1 h2, List.mem_append]
  cases hp : (lowerL (lastWordOf b)).isPrefixOf (lowerL c.2) with
  | true => exact Or.inl ((perm_sortByLower _).mem_iff.mpr (List.mem_filter.mpr ⟨hc, hp⟩))
  | false => exact Or.inr ((perm_sortByLower _).mem_iff.mpr
      (List.mem_filter.mpr ⟨hc, by rw [hp]; rfl⟩))

theorem count_completionsOf (st : CodeCompleter) (b : List Char) (c : Candidate)
    (h1 : ¬(classifyBefore b = Context.comment ∨ classifyBefore b = Context.string))
    (h2 : lastWordOf b ≠ []) :
    (completionsOf st b).count c = (candidatePool st b).count c := by
  rw [completionsOf_main st b h1 h2]
  have e : ∀ l : List Candidate, l.count c = l.countP (fun x => x == c) := fun _ => rfl
  rw [e, e, List.countP_append]
  have ha := List.Perm.countP_eq (fun x => x == c)
    (perm_sortByLower ((candidatePool st b).filter
      (fun c => (lowerL (lastWordOf b)).isPrefixOf (lowerL c.2))))
  have hb := List.Perm.countP_eq (fun x => x == c)
    (perm_sortByLower ((candidatePool st b).filter
      (fun c => !(lowerL (lastWordOf b)).isPrefixOf (lowerL c.2))))
  have hab := List.Perm.countP_eq (fun x => x == c)
    (List.filter_append_perm
      (fun c : Candidate => (lowerL (lastWordOf b)).isPrefixOf (lowerL c.2))
      (candidatePool st b))
  rw [List.countP_append] at hab
  omega

/-! ### Lemmas about the project-symbol map -/

theorem lookup_addSymbol_self (m : List (List Char × List (List Char)))
    (f p : List Char) :
    ∃ ps, lookupSyms (addSymbol m f p) f = some ps ∧ p ∈ ps := by
  induction m with
  | nil => exact ⟨[p], by simp [addSymbol, lookupSyms], by simp⟩
  | cons head rest ih =>
    rcases head with ⟨g, qs⟩
    by_cases hg : g = f
    · subst hg
      exact ⟨qs ++ [p], by simp [addSymbol, lookupSyms], by simp⟩
    · rcases ih with ⟨ps, hlook, hmem⟩
      exact ⟨ps, by simp [addSymbol, lookupSyms, hg, hlook], hmem⟩

theorem lookup_addSymbol_preserve (m : List (List Char × List (List Char)))
    (f p g q : List Char)
    (h : ∃ qs, lookupSyms m g = some qs ∧ q ∈ qs) :
    ∃ qs, lookupSyms (addSymbol m f p) g = some qs ∧ q ∈ qs := by
  induction m with
  | nil => rcases h with ⟨qs, hlook, _⟩; simp [lookupSyms] at hlook
  | cons head rest ih =>
    rcases head with ⟨x, xs⟩
    rcases h with ⟨qs, hlook, hq⟩
    by_cases hxg : x = g
    · subst hxg
      have hxs : xs = qs := by simpa [lookupSyms] using hlook
      subst hxs
      by_cases hxf : x = f
      · subst hxf
        exact ⟨xs ++ [p], by simp [addSymbol, lookupSyms],
          List.mem_append_left _ hq⟩
      · exact ⟨xs, by simp [addSymbol, lookupSyms, hxf], hq⟩
    · have hlook' : lookupSyms rest g = some qs := by
        simpa [lookupSyms, hxg] using hlook
      by_cases hxf : x = f
      · subst hxf
        exact ⟨qs, by simp [addSymbol, lookupSyms, hxg, hlook'], hq⟩
      · rcases ih ⟨qs, hlook', hq⟩ with ⟨qs', hlook2, hq'⟩
        exact ⟨qs', by simp [addSymbol, lookupSyms, hxg, hxf, hlook2], hq'⟩

theorem lookup_foldAdd_preserve (fns : List (List Char)) (path : List Char) :
    ∀ (m : List (List Char × List (List Char))) (g q : List Char),
      (∃ qs, lookupSyms m g = some qs ∧ q ∈ qs) →
      ∃ qs, lookupSyms (fns.foldl (fun m f => addSymbol m f path) m) g = some qs ∧ q ∈ qs := by
  induction fns with
  | nil => intro m g q h; exact h
  | cons f fs ih =>
    intro m g q h
    exact ih (addSymbol m f path) g q (lookup_addSymbol_preserve m f path g q h)

theorem lookup_foldAdd_self (fns : List (List Char)) (path : List Char) :
    ∀ (m : List (List Char × List (List Char))) (fn : List Char), fn ∈ fns →
      ∃ ps, lookupSyms (fns.foldl (fun m f => addSymbol m f path) m) fn = some ps ∧ path ∈ ps := by
  induction fns with
  | nil => intro m fn h; simp at h
  | cons f fs ih =>
    intro m fn h
    rcases List.mem_cons.mp h with rfl | hmem
    · exact lookup_foldAdd_preserve fs path (addSymbol m fn path) fn path
        (lookup_addSymbol_self m fn path)
    · exact ih (addSymbol m f path) fn hmem

theorem scan_project_files_eq_foldl (files : List (List Char × Option (List Char))) :
    scan_project_files files = files.foldl scanStep [] := rfl

theorem scanFold_filter (files : List (List Char × Option (List Char))) :
    ∀ init, files.foldl scanStep init =
      (files.filter (fun f => f.2.isSome)).foldl scanStep init := by
  induction files with
  | nil => intro init; rfl
  | cons f fs ih =>
    intro init
    rcases f with ⟨p, c⟩
    cases c with
    | none => simpa [scanStep, List.filter] using ih init
    | some content => simpa [List.filter] using ih (scanStep init (p, some content))

theorem scanFold_preserve (files : List (List Char × Option (List Char))) :
    ∀ (m : List (List Char × List (List Char))) (g q : List Char),
      (∃ qs, lookupSyms m g = some qs ∧ q ∈ qs) →
      ∃ qs, lookupSyms (files.foldl scanStep m) g = some qs ∧ q ∈ qs := by
  induction files with
  | nil => intro m g q h; exact h
  | cons f fs ih =>
    intro m g q h
    apply ih
    rcases f with ⟨p, c⟩
    cases c with
    | none => exact h
    | some content => exact lookup_foldAdd_preserve _ p m g q h

theorem scanFold_adds (files : List (List Char × Option (List Char))) :
    ∀ (m : List (List Char × List (List Char))) (path content fn : List Char),
      (path, some content) ∈ files → fn ∈ extract_functions content →
      ∃ ps, lookupSyms (files.foldl scanStep m) fn = some ps ∧ path ∈ ps := by
  induction files with
  | nil => intro m path content fn h _; simp at h
  | cons f fs ih =>
    intro m path content fn h hfn
    rcases List.mem_cons.mp h with rfl | hmem
    · apply scanFold_preserve fs
      exact lookup_foldAdd_self _ path m fn hfn
    · exact ih (scanStep m f) path content fn hmem hfn

/-! ### Concrete behaviour of the regex models

Reference values for the three `re.findall` models and the header search,
fixing the backtracking behaviour of the source's patterns (greedy
`[^)]*` resuming after whole matches, block backtracking in
`func_pattern`, and the non-include failure cases). -/

theorem varFindAll_decl : varFindAll (strL "int abc; foo(ab") = [strL "abc"] := by decide

theorem paramFindAll_pair : paramFindAll (strL "(int a, char b)") = [strL "b"] := by decide

theorem paramFindAll_open : paramFindAll (strL "(a, b") = [strL "a"] := by decide

theorem paramFindAll_nested : paramFindAll (strL "((a)") = [strL "a"] := by decide

theorem paramFindAll_nocomma : paramFindAll (strL "(a b") = [] := by decide

theorem extract_functions_decl : extract_functions (strL "int main(void);") = [strL "main"] := by decide

theorem extract_functions_multiword :
    extract_functions (strL "unsigned int foo(int x) ;") = [strL "foo"] := by decide

theorem extract_header_name_angle :
    extract_header_name (strL "#include <stdio.h>") = some (strL "stdio.h") := by decide

theorem extract_header_name_unclosed :
    extract_header_name (strL "#include <st") = none := by decide

theorem candidatePool_args_eq (st : CodeCompleter) (b : List Char)
    (h : classifyBefore b = Context.function_args) :
    candidatePool st b =
      ((extract_local_variables b).filter
          (fun v => containsSub (lowerL (lastWordOf b)) (lowerL v))).map
        (fun v => (Kind.var, v))
      ++ ((st.projectSymbols.map Prod.fst).filter
          (fun s => containsSub (lowerL (lastWordOf b)) (lowerL s))).map
        (fun s => (Kind.func, s))
      ++ ((extract_local_variables b).filter
          (fun v => containsSub (lowerL (lastWordOf b)) (lowerL v))).map
        (fun v => (Kind.var, v)) := by
  unfold candidatePool
  rw [h]

theorem candidatePool_code_eq (st : CodeCompleter) (b : List Char)
    (h : classifyBefore b = Context.code) :
    candidatePool st b =
      ((extract_local_variables b).filter
          (fun v => containsSub (lowerL (lastWordOf b)) (lowerL v))).map
        (fun v => (Kind.var, v))
      ++ ((st.projectSymbols.map Prod.fst).filter
          (fun s => containsSub (lowerL (lastWordOf b)) (lowerL s))).map
        (fun s => (Kind.func, s))
      ++ ((C_KEYWORDS.filter
            (fun k => containsSub (lowerL (lastWordOf b)) (lowerL k))).map
          (fun k => (Kind.keyword, k))
        ++ (C_TYPES.filter
            (fun t => containsSub (lowerL (lastWordOf b)) (lowerL t))).map
          (fun t => (Kind.type, t))
        ++ (C_STDLIB_FUNCTIONS.filter
            (fun f => containsSub (lowerL (lastWordOf b)) (lowerL f))).map
          (fun f => (Kind.func, f))
        ++ ((C_SNIPPETS.map Prod.fst).filter
            (fun n => containsSub (lowerL (lastWordOf b)) (lowerL n))).map
          (fun n => (Kind.snippet, n))) := by
  unfold candidatePool
  rw [h]

/-! ### The claims -/

/-- Claim C1, corrected: in every result of `get_completions`, with the
prefix being the one `get_last_word` actually computes (the identifier
run ending at the cursor — or, when `text[0:cursorPos]` ends in a
newline, the run just before that final newline, by `re` `$`
semantics), every candidate whose lowercase text starts with the
lowercase prefix appears before every candidate that merely contains it
elsewhere, and each tier is alphabetically non-decreasing by lowercase
text (`candLe`).  Relative to the claim's own prefix — the maximal
identifier run ending at the cursor — the invariant fails, see
`c1_cex`. -/
theorem c1_two_tier_ranking (st : CodeCompleter) (text : List Char) (cursorPos : Nat) :
    ∃ e k : List Candidate,
      get_completions st text cursorPos = e ++ k ∧
      (∀ c ∈ e, (lowerL (get_last_word text cursorPos)).isPrefixOf (lowerL c.2) = true) ∧
      (∀ c ∈ k, (lowerL (get_last_word text cursorPos)).isPrefixOf (lowerL c.2) = false) ∧
      List.Sorted candLe e ∧ List.Sorted candLe k := by
  unfold get_completions get_last_word
  by_cases h1 : classifyBefore (text.take cursorPos) = Context.comment ∨
      classifyBefore (text.take cursorPos) = Context.string
  · refine ⟨[], [], ?_, by simp, by simp, List.sorted_nil, List.sorted_nil⟩
    unfold completionsOf
    rw [if_pos h1]
    rfl
  · by_cases h2 : lastWordOf (text.take cursorPos) = []
    · refine ⟨[], [], ?_, by simp, by simp, List.sorted_nil, List.sorted_nil⟩
      unfold completionsOf
      rw [if_neg h1, if_pos h2]
      rfl
    · refine ⟨_, _, completionsOf_main st (text.take cursorPos) h1 h2,
        ?_, ?_, sorted_sortByLower _, sorted_sortByLower _⟩
      · intro c hc
        have hmem := (perm_sortByLower _).mem_iff.mp hc
        exact (List.mem_filter.mp hmem).2
      · intro c hc
        have hmem := (perm_sortByLower _).mem_iff.mp hc
        have hf := (List.mem_filter.mp hmem).2
        cases hp : (lowerL (lastWordOf (text.take cursorPos))).isPrefixOf (lowerL c.2) with
        | true => rw [hp] at hf; exact absurd hf (by simp)
        | false => rfl

/-- Claim C1, counterexample to the claim as stated: at `pri\n` with the
cursor at offset 4 the character before the cursor is a newline, so the
claim's prefix (the maximal identifier run ending at the cursor) is
empty and every candidate lies in its prefix tier; the claim then
requires the whole sequence to be alphabetically non-decreasing, but the
program computes the partial `pri` across the trailing newline and
returns `printf` immediately before `fprintf`, a strict descent in
lowercase order. -/
theorem c1_cex :
    ((strL "pri\n").take 4).getLast? = some '\n' ∧
    get_completions initCompleter (strL "pri\n") 4 =
      [(Kind.func, strL "printf"), (Kind.snippet, strL "printf"),
       (Kind.func, strL "fprintf"), (Kind.func, strL "sprintf")] ∧
    lexLe (lowerL (strL "printf")) (lowerL (strL "fprintf")) = false :=
  ⟨by decide, by decide, by decide⟩

/-- Claim C2, corrected: in plain-code context the standard-library
function candidates are offered purely by the lowercase-substring filter
against the prefix — no hypothesis about `#include` lines is needed, so
they are not scoped to included headers. -/
theorem c2_stdlib_not_header_scoped (st : CodeCompleter) (text : List Char)
    (cursorPos : Nat) (f : List Char)
    (hctx : get_context text cursorPos = Context.code)
    (hw : get_last_word text cursorPos ≠ [])
    (hf : f ∈ C_STDLIB_FUNCTIONS)
    (hmatch : containsSub (lowerL (get_last_word text cursorPos)) (lowerL f) = true) :
    (Kind.func, f) ∈ get_completions st text cursorPos := by
  unfold get_context at hctx
  unfold get_completions
  unfold get_last_word at hw hmatch
  have h1 : ¬(classifyBefore (text.take cursorPos) = Context.comment ∨
      classifyBefore (text.take cursorPos) = Context.string) := by
    rw [hctx]
    rintro (h | h) <;> exact Context.noConfusion h
  apply mem_completionsOf st (text.take cursorPos) (Kind.func, f) h1 hw
  rw [candidatePool_code_eq st (text.take cursorPos) hctx]
  have hfs : (Kind.func, f) ∈ (C_STDLIB_FUNCTIONS.filter
      (fun g => containsSub (lowerL (lastWordOf (text.take cursorPos))) (lowerL g))).map
        (fun g => (Kind.func, g)) :=
    List.mem_map_of_mem _ (List.mem_filter.mpr ⟨hf, hmatch⟩)
  simp only [List.mem_append]
  tauto

/-- Claim C2, counterexample to the claim as stated: the document `pri`
contains no `#include` line (no header is extracted), yet at offset 3 the
standard-library function `printf` is offered. -/
theorem c2_cex :
    containsSub (strL "#include") (strL "pri") = false ∧
    get_included_headers (strL "pri") = [] ∧
    (Kind.func, strL "printf") ∈ get_completions initCompleter (strL "pri") 3 :=
  ⟨by decide, by decide, by decide⟩

/-- Claim C2 witness: the general-context membership theorem applied to
`printf` in the include-free document `pri`. -/
theorem c2_witness : (Kind.func, strL "printf") ∈ get_completions initCompleter (strL "pri") 3 :=
  c2_stdlib_not_header_scoped initCompleter (strL "pri") 3 (strL "printf")
    (by decide) (by decide) (by decide) (by decide)

/-- Claim C3, corrected: whenever the number of double quotes not
immediately preceded by a backslash in `text[0:cursorPos]` is odd, the
cursor is classified inside a string and `get_completions` returns the
empty sequence.  (The universal "strictly inside a string literal" form
fails: the escape heuristic miscounts `"\\"`, see `c3_cex`.) -/
theorem c3_string_suppression (st : CodeCompleter) (text : List Char) (cursorPos : Nat)
    (h : numUnescQ none (text.take cursorPos) % 2 = 1) :
    get_completions st text cursorPos = [] := by
  have hs : inString (text.take cursorPos) = true := (inString_iff_numUnescQ _).mpr h
  have hcl : classifyBefore (text.take cursorPos) = Context.string := by
    unfold classifyBefore
    rw [if_pos hs]
  unfold get_completions completionsOf
  rw [if_pos (Or.inr hcl)]

/-- Claim C3, counterexample to the claim as stated: in the document
`"\\" "abc"` (offsets 0-9) the string literal `"abc"` occupies offsets
5-9 and offset 7 is strictly inside it, yet `get_completions` is
non-empty there: the two quotes of `"\\"` and the escaped-looking
backslash-quote pair leave an even unescaped-quote parity before
offset 7. -/
theorem c3_cex :
    (strL "\"\\\\\" \"abc\"").drop 5 = strL "\"abc\"" ∧
    (strL "\"\\\\\" \"abc\"").length = 10 ∧
    get_completions initCompleter (strL "\"\\\\\" \"abc\"") 7 ≠ [] :=
  ⟨by decide, by decide, by decide⟩

/-- Claim C3 witness: inside `"a` the quote parity is odd and the result
is empty. -/
theorem c3_witness : get_completions initCompleter (strL "\"a") 2 = [] :=
  c3_string_suppression initCompleter (strL "\"a") 2 (by decide)

/-- Claim C4, corrected: whenever `apply_completion` returns a result,
the new text is exactly the original text before the replaced partial,
the inserted completion text, and the original text from the cursor on,
where the replaced partial is the one `get_last_word` actually computes
— when `text[0:cursorPos]` ends in a newline it is the word run before
that final newline, so the spliced span then also covers the newline
itself.  Relative to the claim's own span, bounded by the maximal
identifier run ending at the cursor, locality fails, see `c4_cex`. -/
theorem c4_apply_splice_locality (text : List Char) (cursorPos : Nat)
    (c : Candidate) (res : List Char × Nat)
    (_hpos : cursorPos ≤ text.length)
    (happ : apply_completion text cursorPos c = some res) :
    res.1 = text.take (cursorPos - (get_last_word text cursorPos).length)
      ++ insertedText c ++ text.drop cursorPos := by
  rcases c with ⟨k, t⟩
  cases k with
  | snippet =>
    simp only [apply_completion] at happ
    cases hl : List.lookup t C_SNIPPETS with
    | none => rw [hl] at happ; exact absurd happ (by simp)
    | some content =>
      rw [hl] at happ
      injection happ with happ
      rw [← happ]
      simp [insertedText, hl, List.append_assoc]
  | func =>
    simp only [apply_completion] at happ
    injection happ with happ
    rw [← happ]
    simp [insertedText, List.append_assoc]
  | keyword =>
    simp only [apply_completion] at happ
    injection happ with happ
    rw [← happ]
    simp [insertedText]
  | type =>
    simp only [apply_completion] at happ
    injection happ with happ
    rw [← happ]
    simp [insertedText]
  | var =>
    simp only [apply_completion] at happ
    injection happ with happ
    rw [← happ]
    simp [insertedText]
  | preproc =>
    simp only [apply_completion] at happ
    injection happ with happ
    rw [← happ]
    simp [insertedText]
  | header =>
    simp only [apply_completion] at happ
    injection happ with happ
    rw [← happ]
    simp [insertedText]

/-- Claim C4, counterexample to the claim as stated: at `pri\n` with the
in-bounds cursor offset 4, the claim's prefix (the maximal identifier
run ending at the cursor) is empty, so the claim requires every
character of the original text to survive, with insertion at offset 4
only — giving `pri\nint`.  The program instead computes the partial
`pri` across the trailing newline and returns `pint`, modifying
offsets 1-3 outside the claimed empty span. -/
theorem c4_cex :
    ((strL "pri\n").take 4).getLast? = some '\n' ∧
    apply_completion (strL "pri\n") 4 (Kind.keyword, strL "int") = some (strL "pint", 4) ∧
    strL "pint" ≠ (strL "pri\n").take 4 ++ strL "int" ++ (strL "pri\n").drop 4 :=
  ⟨by decide, by decide, by decide⟩

/-- Claim C4 witness: applying `("function", "printf")` to `pri` at
offset 3 splices to `printf()`. -/
theorem c4_witness :
    apply_completion (strL "pri") 3 (Kind.func, strL "printf") = some (strL "printf()", 7) ∧
    strL "printf()" = (strL "pri").take (3 - (get_last_word (strL "pri") 3).length)
      ++ insertedText (Kind.func, strL "printf") ++ (strL "pri").drop 3 :=
  ⟨by decide,
   c4_apply_splice_locality (strL "pri") 3 (Kind.func, strL "printf")
     (strL "printf()", 7) (by decide) (by decide)⟩

/-- Claim C5, corrected: for `#include <st` with the cursor at its end
(offset 12), `get_context` returns `preprocessor` — the code has no
separate include context; the `#include` special case lives inside
`get_completions` — and the completion list is exactly the three
`st`-prefixed standard headers in alphabetical order, starting with
`stdio.h` then `stdlib.h`. -/
theorem c5_include_scenario :
    get_context (strL "#include <st") 12 = Context.preprocessor ∧
    get_completions initCompleter (strL "#include <st") 12 =
      [(Kind.header, strL "stdio.h"), (Kind.header, strL "stdlib.h"),
       (Kind.header, strL "string.h")] :=
  ⟨by decide, by decide⟩

/-- Claim C5, counterexample to the claim as stated: the classification
at `#include <st` (offset 12) is `preprocessor`, the same value produced
for a non-include directive line such as `#define A` — there is no
distinct include context in the code. -/
theorem c5_cex :
    get_context (strL "#include <st") 12 = Context.preprocessor ∧
    get_context (strL "#define A") 9 = Context.preprocessor :=
  ⟨by decide, by decide⟩

/-- Claim C6, corrected: when the string, comment and preprocessor checks
all fail, the classification is `function_args` iff some `(` before the
cursor has no `)` after it (before the cursor) — the code inspects only
the rightmost `(`, not the nearest unmatched one. -/
theorem c6_function_args_iff (text : List Char) (cursorPos : Nat)
    (h1 : inString (text.take cursorPos) = false)
    (h2 : inComment (text.take cursorPos) = false)
    (h3 : inPreproc (text.take cursorPos) = false) :
    get_context text cursorPos = Context.function_args ↔
      ∃ u v, text.take cursorPos = u ++ '(' :: v ∧ ')' ∉ v := by
  have e1 : get_context text cursorPos =
      if parenOpen (text.take cursorPos) then Context.function_args
      else if memberCtx (text.take cursorPos) then Context.struct_member
      else Context.code := by
    unfold get_context classifyBefore
    rw [h1, h2, h3]
    simp
  rw [e1]
  constructor
  · intro h
    by_cases hp : parenOpen (text.take cursorPos) = true
    · exact (parenOpen_iff _).mp hp
    · rw [if_neg hp] at h
      by_cases hm : memberCtx (text.take cursorPos) = true
      · rw [if_pos hm] at h
        exact absurd h (by simp)
      · rw [if_neg hm] at h
        exact absurd h (by simp)
  · intro hex
    rw [if_pos ((parenOpen_iff _).mpr hex)]

/-- Claim C6, counterexample to the claim as stated: in `(()` (cursor at
offset 3, no higher-precedence context applies) there is an unmatched `(`
— the first one: the span from it holds two `(` and one `)` — yet the
classification is `code`, because the code checks only the rightmost `(`,
which is closed. -/
theorem c6_cex :
    get_context (strL "(()") 3 = Context.code ∧
    inString (strL "(()") = false ∧ inComment (strL "(()") = false ∧
    inPreproc (strL "(()") = false ∧
    (∃ u v, (strL "(()").take 3 = u ++ '(' :: v ∧ v.count ')' ≤ v.count '(') :=
  ⟨by decide, by decide, by decide, by decide, ⟨[], strL "()", by decide, by decide⟩⟩

/-- Claim C6 witness: `foo(ba` at offset 6 is classified `function_args`
via the corrected equivalence. -/
theorem c6_witness : get_context (strL "foo(ba") 6 = Context.function_args :=
  (c6_function_args_iff (strL "foo(ba") 6 (by decide) (by decide) (by decide)).mpr
    ⟨strL "foo", strL "ba", by decide, by decide⟩

/-- Claim C7, corrected: when no higher-precedence context applies, the
classification is `struct_member` iff the last five characters before
the cursor contain a `.` or a `->` substring — not only when they
immediately precede the cursor. -/
theorem c7_struct_member_iff (text : List Char) (cursorPos : Nat)
    (h1 : inString (text.take cursorPos) = false)
    (h2 : inComment (text.take cursorPos) = false)
    (h3 : inPreproc (text.take cursorPos) = false)
    (h4 : parenOpen (text.take cursorPos) = false) :
    get_context text cursorPos = Context.struct_member ↔
      ('.' ∈ lastN 5 (text.take cursorPos) ∨
       ∃ u v, lastN 5 (text.take cursorPos) = u ++ strL "->" ++ v) := by
  have e1 : get_context text cursorPos =
      if memberCtx (text.take cursorPos) then Context.struct_member
      else Context.code := by
    unfold get_context classifyBefore
    rw [h1, h2, h3, h4]
    simp
  rw [e1]
  have hm : memberCtx (text.take cursorPos) = true ↔
      ('.' ∈ lastN 5 (text.take cursorPos) ∨
       ∃ u v, lastN 5 (text.take cursorPos) = u ++ strL "->" ++ v) := by
    unfold memberCtx
    rw [Bool.or_eq_true]
    constructor
    · rintro (h | h)
      · exact Or.inr ((containsSub_iff _ _).mp h)
      · exact Or.inl ((containsSub_singleton_iff '.' _).mp h)
    · rintro (h | h)
      · exact Or.inr ((containsSub_singleton_iff '.' _).mpr h)
      · exact Or.inl ((containsSub_iff _ _).mpr h)
  constructor
  · intro h
    by_cases hmc : memberCtx (text.take cursorPos) = true
    · exact hm.mp hmc
    · rw [if_neg hmc] at h
      exact absurd h (by simp)
  · intro hor
    rw [if_pos (hm.mpr hor)]

/-- Claim C7, counterexample to the claim as stated: in `ab.cd` (cursor
at offset 5) the two characters before the cursor are `cd` and the single
character before it is `d`, yet the classification is `struct_member`,
because the `.` appears within the last five characters. -/
theorem c7_cex :
    get_context (strL "ab.cd") 5 = Context.struct_member ∧
    (strL "ab.cd").getLast? ≠ some '.' ∧
    lastN 2 (strL "ab.cd") ≠ strL "->" :=
  ⟨by decide, by decide, by decide⟩

/-- Claim C7 witness: `s.fi` at offset 4 is classified `struct_member`
via the corrected equivalence. -/
theorem c7_witness : get_context (strL "s.fi") 4 = Context.struct_member :=
  (c7_struct_member_iff (strL "s.fi") 4 (by decide) (by decide) (by decide)
    (by decide)).mpr (Or.inl (by decide))

/-- Claim C8, corrected: out-of-range cursor offsets are not rejected —
there is no bounds check.  An offset beyond the text length yields the
same completions as the end-of-text offset, and `apply_completion`
still returns a normally spliced result for every non-snippet
candidate. -/
theorem c8_out_of_range_not_rejected (st : CodeCompleter) (text : List Char)
    (cursorPos : Nat) (h : text.length ≤ cursorPos) :
    get_completions st text cursorPos = get_completions st text text.length ∧
    ∀ c : Candidate, c.1 ≠ Kind.snippet →
      (apply_completion text cursorPos c).isSome = true := by
  constructor
  · unfold get_completions
    rw [List.take_of_length_le h, List.take_length]
  · intro c hc
    rcases c with ⟨k, t⟩
    cases k
    case snippet => exact absurd rfl hc
    all_goals simp [apply_completion]

/-- Claim C8, counterexample to the claim as stated: offset 5 is outside
`[0, 2]` for the document `ab`, yet `get_completions` returns a normal
candidate sequence and `apply_completion` returns normally spliced
text — no invalid-argument failure occurs. -/
theorem c8_cex :
    (strL "ab").length < 5 ∧
    get_completions initCompleter (strL "ab") 5 =
      [(Kind.func, strL "abort"), (Kind.func, strL "abs"),
       (Kind.func, strL "fabs"), (Kind.func, strL "labs")] ∧
    apply_completion (strL "ab") 5 (Kind.keyword, strL "int") = some (strL "abint", 6) :=
  ⟨by decide, by decide, by decide⟩

/-- Claim C8 witness: the out-of-range behaviour theorem applied at the
document `ab` with offset 5. -/
theorem c8_witness :
    get_completions initCompleter (strL "ab") 5 =
      get_completions initCompleter (strL "ab") (strL "ab").length ∧
    (apply_completion (strL "ab") 5 (Kind.keyword, strL "int")).isSome = true :=
  ⟨(c8_out_of_range_not_rejected initCompleter (strL "ab") 5 (by decide)).1,
   (c8_out_of_range_not_rejected initCompleter (strL "ab") 5 (by decide)).2
     (Kind.keyword, strL "int") (by decide)⟩

/-- Claim C9: an unreadable file contributes nothing and aborts nothing —
scanning equals scanning the readable files alone — and every function
harvested from a readable file is indexed under its name with that
file's path. -/
theorem c9_scan_skips_unreadable (files : List (List Char × Option (List Char))) :
    scan_project_files files =
      scan_project_files (files.filter (fun f => f.2.isSome)) ∧
    ∀ path content fn, (path, some content) ∈ files → fn ∈ extract_functions content →
      ∃ paths, lookupSyms (scan_project_files files) fn = some paths ∧ path ∈ paths := by
  constructor
  · rw [scan_project_files_eq_foldl, scan_project_files_eq_foldl]
    exact scanFold_filter files []
  · intro path content fn hmem hfn
    rw [scan_project_files_eq_foldl]
    exact scanFold_adds files [] path content fn hmem hfn

/-- Claim C9 witness: a readable file followed by an unreadable one —
the unreadable file is dropped and `main` from the readable file is
indexed. -/
theorem c9_witness :
    scan_project_files [(strL "good.c", some (strL "int main(void);")), (strL "bad.h", none)] =
      scan_project_files [(strL "good.c", some (strL "int main(void);"))] ∧
    ∃ paths, lookupSyms
        (scan_project_files
          [(strL "good.c", some (strL "int main(void);")), (strL "bad.h", none)])
        (strL "main") = some paths ∧ strL "good.c" ∈ paths := by
  have h := c9_scan_skips_unreadable
    [(strL "good.c", some (strL "int main(void);")), (strL "bad.h", none)]
  exact ⟨by simpa using h.1,
    h.2 (strL "good.c") (strL "int main(void);") (strL "main") (by decide) (by decide)⟩

/-- Claim C10: in `function_args` context with a non-empty prefix, every
local variable whose lowercase name contains the lowercase prefix is
added both by the unconditional local-variable block and by the
function-args branch, so it occurs at least twice in the result. -/
theorem c10_function_args_duplicates (st : CodeCompleter) (text : List Char)
    (cursorPos : Nat) (v : List Char)
    (hctx : get_context text cursorPos = Context.function_args)
    (hw : get_last_word text cursorPos ≠ [])
    (hv : v ∈ extract_local_variables (text.take cursorPos))
    (hm : containsSub (lowerL (get_last_word text cursorPos)) (lowerL v) = true) :
    2 ≤ (get_completions st text cursorPos).count (Kind.var, v) := by
  unfold get_context at hctx
  unfold get_last_word at hw hm
  unfold get_completions
  have h1 : ¬(classifyBefore (text.take cursorPos) = Context.comment ∨
      classifyBefore (text.take cursorPos) = Context.string) := by
    rw [hctx]
    rintro (h | h) <;> exact Context.noConfusion h
  rw [count_completionsOf st (text.take cursorPos) (Kind.var, v) h1 hw]
  rw [candidatePool_args_eq st (text.take cursorPos) hctx]
  have hone : 0 < (((extract_local_variables (text.take cursorPos)).filter
      (fun v => containsSub (lowerL (lastWordOf (text.take cursorPos))) (lowerL v))).map
        (fun v => (Kind.var, v))).count (Kind.var, v) := by
    apply List.count_pos_iff.mpr
    exact List.mem_map_of_mem _ (List.mem_filter.mpr ⟨hv, hm⟩)
  rw [List.count_append, List.count_append]
  omega

/-- Claim C10 witness: in `int abc; foo(ab` at offset 15 the local
variable `abc` matches the prefix `ab` and is offered twice. -/
theorem c10_witness :
    2 ≤ (get_completions initCompleter (strL "int abc; foo(ab") 15).count
      (Kind.var, strL "abc") :=
  c10_function_args_duplicates initCompleter (strL "int abc; foo(ab") 15 (strL "abc")
    (by decide) (by decide) (by decide) (by decide)

end ChiX
